import Mathlib

/-!
Verification of the concurrency-demonstration script `ss.py`.

The script defines two identical CPU-bound workloads (`cpu_intensive_task`
and `cpu_task_for_process`), an I/O-bound task with a fallback on network
failure (`io_intensive_task`), module-level sequential and thread-pool
execution of those tasks with a wall-clock speedup ratio, and a shared-log
demonstration in which several worker threads append tagged entries to a
shared list under a single mutual-exclusion lock.

Pure functions are embedded directly.  The I/O task takes the outcome of
the external network call as an explicit argument.  The thread-pool runs
of pure tasks are modelled by an explicit completion schedule filling
result slots that are then collected in submission order.  The shared-log
demonstration is modelled as a small transition system: each worker
alternates between acquiring the lock and appending its next entry, and
reachability from the initial state is the reflexive-transitive closure of
the step relation.
-/

/-- Embeds `cpu_intensive_task(n)`: `result = 0; for i in range(n): result += i * i`.
Python's `range(n)` is empty for `n ≤ 0`, which `Int.toNat` reproduces. -/
def cpu_intensive_task (n : Int) : Int :=
  (List.range n.toNat).foldl (fun result (i : Nat) => result + (i : Int) * (i : Int)) 0

/-- Embeds `cpu_task_for_process(n)`: textually the same loop as
`cpu_intensive_task`, duplicated in the source for the multiprocessing
section. -/
def cpu_task_for_process (n : Int) : Int :=
  (List.range n.toNat).foldl (fun result (i : Nat) => result + (i : Int) * (i : Int)) 0

/-- Outcome of the external blocking network call made by
`io_intensive_task`: either a completed HTTP response with its status
code, or a failure/timeout (`requests.get` raised). -/
inductive NetOutcome where
  | ok (status : Nat)
  | ioFailure
deriving DecidableEq

/-- Embeds `io_intensive_task()`: returns the response status code when the
network call succeeds; on any exception it sleeps for 1 second and
returns 200.  The result pairs the returned status code with the number
of seconds of substituted fallback sleep (0 on the success path, the
fixed 1 on the failure path). -/
def io_intensive_task : NetOutcome → Nat × Nat
  | NetOutcome.ok status => (status, 0)
  | NetOutcome.ioFailure => (200, 1)

/-- The error a division of elapsed times can raise. -/
inductive SpeedupError where
  | divisionByZero
deriving DecidableEq

/-- Modelled from the spec: `speedup(a, b) -> a.elapsed / b.elapsed`,
failing with `DivisionByZero` when `b.elapsed` is zero.  The source has
no named function: it is the two bare divisions
`single_thread_time/multi_thread_time` (lines 37 and 70), which in Python
raise `ZeroDivisionError` when the denominator is exactly zero and
carry no epsilon guard.  Elapsed times are modelled as rationals. -/
def speedup (a b : ℚ) : Except SpeedupError ℚ :=
  if b = 0 then Except.error SpeedupError.divisionByZero else Except.ok (a / b)

/-- The spec's example task: `square`. -/
def square (n : Int) : Int := n * n

/-- Modelled from the spec: `run_sequential(task, args_list)` invokes
`task` once per element of `args_list`, strictly in order, accumulating
each result.  The source instantiates this as the module-level loop
`for i in range(3): results.append(io_intensive_task())`. -/
def run_sequential {α β : Type} (task : α → β) (args : List α) : List β :=
  args.map task

/-- One result slot per submitted argument; a slot is `none` until the
pool has executed that submission. -/
def emptySlots {α β : Type} (args : List α) : List (Option β) :=
  List.replicate args.length none

/-- Executing submission `j` stores `task`'s value on the `j`-th
argument in slot `j`; indices outside the submission range do nothing. -/
def fillSlot {α β : Type} (task : α → β) (args : List α)
    (slots : List (Option β)) (j : Nat) : List (Option β) :=
  match args[j]? with
  | some a => slots.set j (some (task a))
  | none => slots

/-- The pool executes the submitted tasks in an arbitrary completion
`order` (a list of submission indices), filling one result slot per
executed submission. -/
def poolRun {α β : Type} (task : α → β) (args : List α) (order : List Nat) :
    List (Option β) :=
  order.foldl (fillSlot task args) (emptySlots args)

/-- Collect the futures' results in submission order; fails if some
submission was never executed. -/
def collectResults {β : Type} : List (Option β) → Option (List β)
  | [] => some []
  | none :: _ => none
  | some b :: rest => (collectResults rest).map (fun l => b :: l)

/-- Modelled from the spec: `run_concurrent(task, args_list, worker_count)`
submits every element of `args_list` to a fixed-size pool and collects
results in submission order (not completion order).  The source
instantiates this as the `ThreadPoolExecutor` block with
`futures = [executor.submit(...) ...]` and
`results = [future.result() for future in futures]`.  The completion
`order` is the schedule the pool happened to use. -/
def run_concurrent {α β : Type} (task : α → β) (args : List α)
    (worker_count : Nat) (order : List Nat) : Option (List β) :=
  collectResults (poolRun task args order)

/-- The local state of one worker thread in the shared-log demonstration:
its next local step index `pc`, and whether it currently holds the lock
(is inside the `with lock:` append block). -/
structure WorkerSt where
  pc : Nat
  inCrit : Bool
deriving DecidableEq

/-- Global state of the shared-log demonstration: the lock (`none` when
free, `some w` when held by worker `w`), the per-worker local states
(position in the list is the worker's `thread_id`), and the shared list,
recorded as `(thread_id, step)` pairs; the string the worker actually
appends for the pair `(w, i)` is `workerEntry w i`. -/
structure SysState where
  lock : Option Nat
  workers : List WorkerSt
  log : List (Nat × Nat)
deriving DecidableEq

/-- The f-string the worker appends: `f"线程{thread_id}-任务{i}"`. -/
def workerEntry (thread_id i : Nat) : String :=
  "线程" ++ Nat.repr thread_id ++ "-任务" ++ Nat.repr i

/-- The string format the spec claims for appended entries:
`"worker{id}-step{i}"`. -/
def specEntry (thread_id i : Nat) : String :=
  "worker" ++ Nat.repr thread_id ++ "-step" ++ Nat.repr i

/-- One transition of the shared-log demonstration with `steps`
iterations per worker (`for i in range(5)` in the source, generalised).
A worker with iterations left acquires the free lock; the lock holder
appends its entry and releases the lock (the trailing `time.sleep(0.1)`
does not touch shared state and is not modelled). -/
inductive WorkerStep (steps : Nat) : SysState → SysState → Prop
  | acquire (w : Nat) (st : WorkerSt) (s : SysState)
      (hl : s.lock = none)
      (hw : s.workers[w]? = some st)
      (hc : st.inCrit = false)
      (hp : st.pc < steps) :
      WorkerStep steps s ⟨some w, s.workers.set w ⟨st.pc, true⟩, s.log⟩
  | append (w : Nat) (st : WorkerSt) (s : SysState)
      (hl : s.lock = some w)
      (hw : s.workers[w]? = some st)
      (hc : st.inCrit = true) :
      WorkerStep steps s
        ⟨none, s.workers.set w ⟨st.pc + 1, false⟩, s.log ++ [(w, st.pc)]⟩

/-- Reachability in the shared-log demonstration. -/
def Reaches (steps : Nat) : SysState → SysState → Prop :=
  Relation.ReflTransGen (WorkerStep steps)

/-- Initial state of the demonstration with `n` workers: lock free, every
worker at step 0 outside the critical section, shared list empty. -/
def initState (n : Nat) : SysState :=
  ⟨none, List.replicate n ⟨0, false⟩, []⟩

/-- All workers have completed all `steps` iterations and released the
lock: the state after every `t.join()` has returned. -/
def AllDone (steps : Nat) (s : SysState) : Prop :=
  ∀ st ∈ s.workers, st = ⟨steps, false⟩

/-- Worker `w` is inside the append critical section. -/
def InCrit (s : SysState) (w : Nat) : Prop :=
  ∃ st, s.workers[w]? = some st ∧ st.inCrit = true

/-- The next step index of worker `w` (0 for indices with no worker). -/
def pcOf (s : SysState) (w : Nat) : Nat :=
  match s.workers[w]? with
  | some st => st.pc
  | none => 0

/-- The inductive invariant of the shared-log demonstration with `n`
workers and `steps` iterations per worker: worker-list length is fixed;
step counters never exceed `steps` and a worker inside the critical
section still has an iteration to log; a worker is inside the critical
section exactly when it holds the lock; every log entry belongs to a
real worker; and the entries of worker `w`, in log order, are exactly
steps `0, …, pcOf s w - 1`. -/
structure SysInv (steps n : Nat) (s : SysState) : Prop where
  wlen : s.workers.length = n
  pc_le : ∀ (w : Nat) (st : WorkerSt), s.workers[w]? = some st → st.pc ≤ steps
  crit_pc : ∀ (w : Nat) (st : WorkerSt), s.workers[w]? = some st → st.inCrit = true → st.pc < steps
  crit_lock : ∀ (w : Nat) (st : WorkerSt), s.workers[w]? = some st → st.inCrit = true → s.lock = some w
  lock_crit : ∀ w : Nat, s.lock = some w → ∃ st : WorkerSt, s.workers[w]? = some st ∧ st.inCrit = true
  log_dom : ∀ p ∈ s.log, p.1 < n
  log_seq : ∀ w, (s.log.filter (fun p => p.1 == w)).map Prod.snd = List.range (pcOf s w)

/-- The final state of the demonstration run (`worker_count = 3`,
`steps_per_worker = 5`) produced by the sequential schedule in which
worker 0 finishes first, then worker 1, then worker 2. -/
def demoFinal : SysState :=
  ⟨none, [⟨5, false⟩, ⟨5, false⟩, ⟨5, false⟩],
    [(0, 0), (0, 1), (0, 2), (0, 3), (0, 4),
     (1, 0), (1, 1), (1, 2), (1, 3), (1, 4),
     (2, 0), (2, 1), (2, 2), (2, 3), (2, 4)]⟩

/-- Unfolding one iteration of the square-sum loop. -/
lemma cpu_loop_succ (k : Nat) :
    (List.range (k + 1)).foldl (fun result i => result + i * i) 0 =
      (List.range k).foldl (fun result i => result + i * i) 0 + k * k := by
  rw [List.range_succ, List.foldl_append]
  simp only [List.foldl_cons, List.foldl_nil]

/-- Closed form of the square-sum loop over `ℕ`, in subtraction-free
shape. -/
lemma six_mul_cpu_loop_succ (m : Nat) :
    6 * (List.range (m + 1)).foldl (fun result i => result + i * i) 0 =
      m * (m + 1) * (2 * m + 1) := by
  induction m with
  | zero => rfl
  | succ j ih =>
    rw [cpu_loop_succ, Nat.mul_add, ih]
    ring

/-- The `Int`-valued loop of `cpu_intensive_task` agrees with the
`ℕ`-valued loop under the coercion. -/
lemma cpu_task_int_cast (m : Nat) :
    cpu_intensive_task (m : Int) =
      (((List.range m).foldl (fun result i => result + i * i) 0 : Nat) : Int) := by
  rw [cpu_intensive_task, Int.toNat_natCast]
  induction m with
  | zero => rfl
  | succ k ih =>
    rw [cpu_loop_succ, List.range_succ, List.foldl_append, ih]
    simp only [List.foldl_cons, List.foldl_nil]
    push_cast
    ring

/-- Claim C9: for every integer `n ≥ 0`, `cpu_intensive_task n`
terminates and returns the sum of `i * i` for `i` from `0` to `n - 1`,
which equals `(n - 1) * n * (2 * n - 1) / 6`. -/
theorem cpu_intensive_task_closed_form (n : Int) (h : 0 ≤ n) :
    cpu_intensive_task n = ∑ i in Finset.range n.toNat, (i : Int) * (i : Int) ∧
    cpu_intensive_task n = (n - 1) * n * (2 * n - 1) / 6 := by
  obtain ⟨m, rfl⟩ : ∃ m : Nat, n = (m : Int) := ⟨n.toNat, (Int.toNat_of_nonneg h).symm⟩
  clear h
  constructor
  · rw [Int.toNat_natCast, cpu_task_int_cast]
    induction m with
    | zero => rfl
    | succ k ih =>
      rw [Finset.sum_range_succ, cpu_loop_succ, ← ih]
      push_cast
      ring
  · rcases m with _ | k
    · decide
    · rw [cpu_task_int_cast]
      have h6 := six_mul_cpu_loop_succ k
      have hsub1 : ((k + 1 : Nat) : Int) - 1 = (k : Int) := by push_cast; ring
      have hsub2 : 2 * ((k + 1 : Nat) : Int) - 1 = ((2 * k + 1 : Nat) : Int) := by
        push_cast; ring
      rw [hsub1, hsub2]
      have hmul : (k : Int) * ((k + 1 : Nat) : Int) * ((2 * k + 1 : Nat) : Int) =
          ((k * (k + 1) * (2 * k + 1) : Nat) : Int) := by push_cast; ring
      rw [hmul, ← h6]
      push_cast
      omega

/-- Witness for C9 at `n = 3`: the task returns `0 + 1 + 4 = 5`, matched
by the closed form `2 * 3 * 5 / 6 = 5`. -/
theorem cpu_intensive_task_closed_form_witness :
    (0 : Int) ≤ 3 ∧
    (cpu_intensive_task 3 = ∑ i in Finset.range (3 : Int).toNat, (i : Int) * (i : Int) ∧
     cpu_intensive_task 3 = (3 - 1) * 3 * (2 * 3 - 1) / 6) :=
  ⟨by decide, cpu_intensive_task_closed_form 3 (by decide)⟩

/-- Claim C10: `cpu_task_for_process` is extensionally equal to
`cpu_intensive_task`: the two loops in the source are identical. -/
theorem cpu_task_for_process_eq_cpu_intensive_task (n : Int) :
    cpu_task_for_process n = cpu_intensive_task n := rfl

/-- Claim C5: `io_intensive_task` always returns a status code and
never raises: on the failure outcome it substitutes the fixed 1-second
sleep and returns the fixed success status 200; on the success outcome
it returns the response's status code with no fallback sleep. -/
theorem io_intensive_task_total_and_recovers (o : NetOutcome) :
    (o = NetOutcome.ioFailure → io_intensive_task o = (200, 1)) ∧
    ∃ status wait, io_intensive_task o = (status, wait) ∧
      (∀ st, o = NetOutcome.ok st → status = st ∧ wait = 0) := by
  cases o with
  | ok st =>
    refine ⟨?_, st, 0, rfl, ?_⟩
    · intro h
      cases h
    · intro st' h
      cases h
      exact ⟨rfl, rfl⟩
  | ioFailure =>
    refine ⟨fun _ => rfl, 200, 1, rfl, ?_⟩
    intro st h
    cases h

/-- Witness for C5 at the failure outcome: the task returns `(200, 1)`. -/
theorem io_intensive_task_total_and_recovers_witness :
    io_intensive_task NetOutcome.ioFailure = (200, 1) :=
  (io_intensive_task_total_and_recovers NetOutcome.ioFailure).1 rfl

/-- Counterexample to claim C4 as stated: `speedup` with a zero second
elapsed time does not return a defined (`ok`) result — the division is
not epsilon-guarded. -/
theorem speedup_zero_is_error : ¬ ∃ q : ℚ, speedup 1 0 = Except.ok q := by
  intro ⟨q, hq⟩
  simp [speedup] at hq

/-- Claim C4 (amended): `speedup a b` raises `DivisionByZero` exactly
when `b` is zero — there is no epsilon guard — and for `b ≠ 0` it
returns `a / b` without error. -/
theorem speedup_error_iff_zero (a b : ℚ) :
    (b = 0 → speedup a b = Except.error SpeedupError.divisionByZero) ∧
    (b ≠ 0 → speedup a b = Except.ok (a / b)) := by
  constructor
  · intro h
    simp [speedup, h]
  · intro h
    simp [speedup, h]

/-- Witness for amended C4 at `a = 3`, `b = 2`: the ratio `3 / 2` is
returned without error. -/
theorem speedup_error_iff_zero_witness :
    (2 : ℚ) ≠ 0 ∧ speedup 3 2 = Except.ok (3 / 2) :=
  ⟨by norm_num, (speedup_error_iff_zero 3 2).2 (by norm_num)⟩

/-- Filling a slot preserves the number of slots. -/
lemma fillSlot_length {α β : Type} (task : α → β) (args : List α)
    (slots : List (Option β)) (j : Nat) :
    (fillSlot task args slots j).length = slots.length := by
  unfold fillSlot
  cases args[j]? with
  | none => rfl
  | some a => exact List.length_set slots j (some (task a))

/-- Running any completion order preserves the number of slots. -/
lemma foldl_fillSlot_length {α β : Type} (task : α → β) (args : List α) :
    ∀ (order : List Nat) (slots : List (Option β)),
      (order.foldl (fillSlot task args) slots).length = slots.length := by
  intro order
  induction order with
  | nil => intro slots; rfl
  | cons j rest ih =>
    intro slots
    rw [List.foldl_cons, ih, fillSlot_length]

/-- Slot contents after running a completion order: every executed
in-range submission holds its task value; untouched slots are
unchanged. -/
lemma foldl_fillSlot_getElem {α β : Type} (task : α → β) (args : List α) :
    ∀ (order : List Nat) (slots : List (Option β)) (j : Nat),
      (j ∈ order → ∀ a, args[j]? = some a → slots.length = args.length →
        (order.foldl (fillSlot task args) slots)[j]? = some (some (task a))) ∧
      (j ∉ order → (order.foldl (fillSlot task args) slots)[j]? = slots[j]?) := by
  intro order
  induction order with
  | nil =>
    intro slots j
    exact ⟨fun h => absurd h (List.not_mem_nil j), fun _ => rfl⟩
  | cons j0 rest ih =>
    intro slots j
    rw [List.foldl_cons]
    constructor
    · intro hj a ha hlen
      by_cases hjr : j ∈ rest
      · exact (ih (fillSlot task args slots j0) j).1 hjr a ha
          (by rw [fillSlot_length]; exact hlen)
      · have hj0 : j = j0 := by
          rcases List.mem_cons.mp hj with h | h
          · exact h
          · exact absurd h hjr
        subst hj0
        rw [(ih (fillSlot task args slots j) j).2 hjr]
        unfold fillSlot
        rw [ha]
        have hlt : j < slots.length := by
          rw [hlen]
          exact (List.getElem?_eq_some_iff.mp ha).1
        exact List.getElem?_set_self hlt
    · intro hj
      have hj0 : j ≠ j0 := fun h => hj (h ▸ List.mem_cons_self j0 rest)
      have hjr : j ∉ rest := fun h => hj (List.mem_cons_of_mem j0 h)
      rw [(ih (fillSlot task args slots j0) j).2 hjr]
      unfold fillSlot
      cases args[j0]? with
      | none => rfl
      | some a => exact List.getElem?_set_ne (fun h => hj0 h.symm)

/-- If the schedule executes every submission, the slots end up holding
exactly the task's value on each argument, in submission order. -/
lemma poolRun_eq_map {α β : Type} (task : α → β) (args : List α) (order : List Nat)
    (hord : ∀ j, j < args.length → j ∈ order) :
    poolRun task args order = args.map (fun a => some (task a)) := by
  apply List.ext_getElem?
  intro j
  by_cases hj : j < args.length
  · have ha : args[j]? = some args[j] := List.getElem?_eq_getElem hj
    rw [poolRun, (foldl_fillSlot_getElem task args order (emptySlots args) j).1
      (hord j hj) args[j] ha (by rw [emptySlots, List.length_replicate])]
    rw [List.getElem?_map, ha]
    rfl
  · have h1 : (poolRun task args order)[j]? = none := by
      apply List.getElem?_eq_none
      rw [poolRun, foldl_fillSlot_length, emptySlots, List.length_replicate]
      omega
    have h2 : (args.map (fun a => some (task a)))[j]? = none := by
      apply List.getElem?_eq_none
      rw [List.length_map]
      omega
    rw [h1, h2]

/-- Collecting a list of already-resolved futures succeeds with their
values. -/
lemma collectResults_map_some {β : Type} (l : List β) :
    collectResults (l.map (fun b => some b)) = some l := by
  induction l with
  | nil => rfl
  | cons b rest ih =>
    rw [List.map_cons]
    show (collectResults (rest.map (fun b => some b))).map (fun l => b :: l) = some (b :: rest)
    rw [ih]
    rfl

/-- Claim C1: for every pure task and argument list, `run_sequential`
and `run_concurrent` (with `worker_count ≥ 1` and a pool schedule that
executes every submission) produce the same result sequence — equal
length and identical values at every index, both in submission order. -/
theorem run_concurrent_agrees_with_run_sequential {α β : Type} (task : α → β)
    (args : List α) (worker_count : Nat) (order : List Nat)
    (hwc : 1 ≤ worker_count) (hord : ∀ j, j < args.length → j ∈ order) :
    run_concurrent task args worker_count order = some (run_sequential task args) ∧
    (run_sequential task args).length = args.length := by
  constructor
  · rw [run_concurrent, poolRun_eq_map task args order hord]
    have hcomp : args.map (fun a => some (task a)) =
        (args.map task).map (fun b => some b) := by
      rw [List.map_map]
      rfl
    rw [hcomp, collectResults_map_some]
    rfl
  · rw [run_sequential, List.length_map]

/-- Witness for C1 on the spec's example: `square` applied to `[1,2,3]`
with three workers and completion order `[2,0,1]` yields `[1,4,9]`, the
same as the sequential run. -/
theorem run_concurrent_agrees_with_run_sequential_witness :
    (1 ≤ 3 ∧ ∀ j, j < ([1, 2, 3] : List Int).length → j ∈ [2, 0, 1]) ∧
    (run_concurrent square [1, 2, 3] 3 [2, 0, 1] = some (run_sequential square [1, 2, 3]) ∧
      (run_sequential square [1, 2, 3]).length = ([1, 2, 3] : List Int).length) ∧
    run_sequential square [1, 2, 3] = [1, 4, 9] :=
  ⟨⟨by decide, by decide⟩,
    run_concurrent_agrees_with_run_sequential square [1, 2, 3] 3 [2, 0, 1]
      (by decide) (by decide),
    by decide⟩

/-- Worker states in the initial state. -/
lemma initState_workers_eq {n w : Nat} {st : WorkerSt}
    (h : (initState n).workers[w]? = some st) : st = ⟨0, false⟩ := by
  simp only [initState, List.getElem?_replicate] at h
  split at h
  · exact (Option.some_inj.mp h).symm
  · exact Option.noConfusion h

/-- Reading `pcOf` through a successful worker lookup. -/
lemma pcOf_eq_of_getElem {s : SysState} {w : Nat} {st : WorkerSt}
    (h : s.workers[w]? = some st) : pcOf s w = st.pc := by
  unfold pcOf
  rw [h]

/-- Reading `pcOf` at an index with no worker. -/
lemma pcOf_eq_zero_of_none {s : SysState} {w : Nat}
    (h : s.workers[w]? = none) : pcOf s w = 0 := by
  unfold pcOf
  rw [h]

/-- The invariant holds initially. -/
lemma sysInv_init (steps n : Nat) : SysInv steps n (initState n) := by
  refine ⟨?_, ?_, ?_, ?_, ?_, ?_, ?_⟩
  · simp [initState]
  · intro w st hw
    rw [initState_workers_eq hw]
    exact Nat.zero_le steps
  · intro w st hw hc
    rw [initState_workers_eq hw] at hc
    exact Bool.noConfusion hc
  · intro w st hw hc
    rw [initState_workers_eq hw] at hc
    exact Bool.noConfusion hc
  · intro w hlock
    exact Option.noConfusion hlock
  · intro p hp
    exact absurd hp (List.not_mem_nil p)
  · intro w
    rcases hget : (initState n).workers[w]? with _ | st
    · rw [pcOf_eq_zero_of_none hget]
      rfl
    · rw [pcOf_eq_of_getElem hget, initState_workers_eq hget]
      rfl

/-- The invariant is preserved by every transition. -/
lemma sysInv_step {steps n : Nat} {s s' : SysState}
    (hi : SysInv steps n s) (hs : WorkerStep steps s s') : SysInv steps n s' := by
  cases hs with
  | acquire w st s hl hw hc hp =>
    have hwlt : w < s.workers.length := (List.getElem?_eq_some_iff.mp hw).1
    have hself : (s.workers.set w ⟨st.pc, true⟩)[w]? = some ⟨st.pc, true⟩ :=
      List.getElem?_set_self hwlt
    refine ⟨?_, ?_, ?_, ?_, ?_, ?_, ?_⟩
    · rw [List.length_set]
      exact hi.wlen
    · intro v stv hv
      by_cases hvw : v = w
      · subst hvw
        rw [hself] at hv
        rw [← Option.some_inj.mp hv]
        exact hi.pc_le v st hw
      · rw [List.getElem?_set_ne (fun h => hvw h.symm)] at hv
        exact hi.pc_le v stv hv
    · intro v stv hv hcv
      by_cases hvw : v = w
      · subst hvw
        rw [hself] at hv
        rw [← Option.some_inj.mp hv]
        exact hp
      · rw [List.getElem?_set_ne (fun h => hvw h.symm)] at hv
        have h2 := hi.crit_lock v stv hv hcv
        rw [hl] at h2
        exact Option.noConfusion h2
    · intro v stv hv hcv
      by_cases hvw : v = w
      · subst hvw
        rfl
      · rw [List.getElem?_set_ne (fun h => hvw h.symm)] at hv
        have h2 := hi.crit_lock v stv hv hcv
        rw [hl] at h2
        exact Option.noConfusion h2
    · intro v hv
      obtain rfl := Option.some_inj.mp hv
      exact ⟨⟨st.pc, true⟩, hself, rfl⟩
    · exact hi.log_dom
    · intro v
      have hpc : pcOf ⟨some w, s.workers.set w ⟨st.pc, true⟩, s.log⟩ v = pcOf s v := by
        by_cases hvw : v = w
        · subst hvw
          rw [pcOf_eq_of_getElem hself, pcOf_eq_of_getElem hw]
        · unfold pcOf
          rw [List.getElem?_set_ne (fun h => hvw h.symm)]
      rw [hpc]
      exact hi.log_seq v
  | append w st s hl hw hc =>
    have hwlt : w < s.workers.length := (List.getElem?_eq_some_iff.mp hw).1
    have hself : (s.workers.set w ⟨st.pc + 1, false⟩)[w]? = some ⟨st.pc + 1, false⟩ :=
      List.getElem?_set_self hwlt
    refine ⟨?_, ?_, ?_, ?_, ?_, ?_, ?_⟩
    · rw [List.length_set]
      exact hi.wlen
    · intro v stv hv
      by_cases hvw : v = w
      · subst hvw
        rw [hself] at hv
        rw [← Option.some_inj.mp hv]
        exact hi.crit_pc v st hw hc
      · rw [List.getElem?_set_ne (fun h => hvw h.symm)] at hv
        exact hi.pc_le v stv hv
    · intro v stv hv hcv
      by_cases hvw : v = w
      · subst hvw
        rw [hself] at hv
        rw [← Option.some_inj.mp hv] at hcv
        exact Bool.noConfusion hcv
      · rw [List.getElem?_set_ne (fun h => hvw h.symm)] at hv
        have h2 := hi.crit_lock v stv hv hcv
        rw [hl] at h2
        exact absurd (Option.some_inj.mp h2).symm hvw
    · intro v stv hv hcv
      by_cases hvw : v = w
      · subst hvw
        rw [hself] at hv
        rw [← Option.some_inj.mp hv] at hcv
        exact Bool.noConfusion hcv
      · rw [List.getElem?_set_ne (fun h => hvw h.symm)] at hv
        have h2 := hi.crit_lock v stv hv hcv
        rw [hl] at h2
        exact absurd (Option.some_inj.mp h2).symm hvw
    · intro v hv
      exact Option.noConfusion hv
    · intro p hp
      rcases List.mem_append.mp hp with h1 | h1
      · exact hi.log_dom p h1
      · rw [List.mem_singleton.mp h1]
        rw [← hi.wlen]
        exact hwlt
    · intro v
      rw [List.filter_append, List.map_append]
      by_cases hvw : v = w
      · subst hvw
        rw [hi.log_seq v, pcOf_eq_of_getElem hw, pcOf_eq_of_getElem hself]
        have hfil : ([((v : Nat), st.pc)].filter (fun p => p.1 == v)) = [(v, st.pc)] := by
          simp
        rw [hfil, List.range_succ]
        rfl
      · have hfil : ([((w : Nat), st.pc)].filter (fun p => p.1 == v)) = [] := by
          simp only [List.filter_cons, List.filter_nil]
          rw [if_neg]
          simp only [beq_iff_eq]
          exact fun h => hvw h.symm
        have hpc : pcOf ⟨none, s.workers.set w ⟨st.pc + 1, false⟩, s.log ++ [(w, st.pc)]⟩ v =
            pcOf s v := by
          unfold pcOf
          rw [List.getElem?_set_ne (fun h => hvw h.symm)]
        rw [hfil, hpc, hi.log_seq v]
        simp

/-- Every reachable state satisfies the invariant. -/
lemma sysInv_reaches {steps n : Nat} {s : SysState}
    (h : Reaches steps (initState n) s) : SysInv steps n s := by
  induction h with
  | refl => exact sysInv_init steps n
  | tail hab hstep ih => exact sysInv_step ih hstep

/-- A log is duplicate-free as soon as, for every worker, the steps of
that worker's entries are duplicate-free. -/
lemma nodup_of_filter_snd (log : List (Nat × Nat))
    (h : ∀ w, ((log.filter (fun p => p.1 == w)).map Prod.snd).Nodup) : log.Nodup := by
  induction log with
  | nil => exact List.nodup_nil
  | cons p rest ih =>
    rcases p with ⟨a, b⟩
    have hfa := h a
    rw [List.filter_cons] at hfa
    have hcond : (((a, b) : Nat × Nat).1 == a) = true := by simp
    rw [if_pos hcond, List.map_cons] at hfa
    have hnodup := List.nodup_cons.mp hfa
    refine List.nodup_cons.mpr ⟨?_, ih ?_⟩
    · intro hmem
      exact hnodup.1 (List.mem_map.mpr ⟨(a, b), List.mem_filter.mpr ⟨hmem, hcond⟩, rfl⟩)
    · intro w
      have hsub : List.Sublist (rest.filter (fun p => p.1 == w))
          (((a, b) :: rest).filter (fun p => p.1 == w)) :=
        List.Sublist.filter _ (List.sublist_cons_self (a, b) rest)
      exact (h w).sublist (hsub.map Prod.snd)

/-- Membership of a pair in the log via its worker's entry list. -/
lemma mem_log_iff (log : List (Nat × Nat)) (w i : Nat) :
    (w, i) ∈ log ↔ i ∈ (log.filter (fun p => p.1 == w)).map Prod.snd := by
  rw [List.mem_map]
  constructor
  · intro h
    exact ⟨(w, i), List.mem_filter.mpr ⟨h, by simp⟩, rfl⟩
  · rintro ⟨⟨a, b⟩, hmem, hsnd⟩
    have h1 := List.mem_filter.mp hmem
    have ha : a = w := by simpa using h1.2
    have hb : b = i := hsnd
    rw [← ha, ← hb]
    exact h1.1

/-- A log whose entries all belong to workers below `n` has as many
entries as the per-worker entry lists together. -/
lemma length_filter_sum (log : List (Nat × Nat)) (n : Nat)
    (hd : ∀ p ∈ log, p.1 < n) :
    log.length = ∑ w in Finset.range n, (log.filter (fun p => p.1 == w)).length := by
  induction log with
  | nil => simp
  | cons p rest ih =>
    have hp : p.1 < n := hd p (List.mem_cons_self p rest)
    have hrest : ∀ q ∈ rest, q.1 < n := fun q hq => hd q (List.mem_cons_of_mem p hq)
    rw [List.length_cons, ih hrest]
    have hterm : ∀ w ∈ Finset.range n, ((p :: rest).filter (fun q => q.1 == w)).length =
        (rest.filter (fun q => q.1 == w)).length + (if p.1 = w then 1 else 0) := by
      intro w _
      rw [List.filter_cons]
      by_cases h : p.1 = w
      · simp [h]
      · simp [h]
    rw [Finset.sum_congr rfl hterm, Finset.sum_add_distrib]
    have hone : (∑ w in Finset.range n, if p.1 = w then 1 else 0) = 1 := by
      rw [Finset.sum_ite_eq (Finset.range n) p.1 (fun _ => 1)]
      rw [if_pos (Finset.mem_range.mpr hp)]
    rw [hone]

/-- Claim C2: once every worker has completed (all threads joined), the
shared log holds exactly `worker_count * steps_per_worker` entries, with
no entry duplicated or missing: the entries are precisely the pairs
`(w, i)` with `w < n` and `i < steps`, each occurring once. -/
theorem shared_log_complete (steps n : Nat) (s : SysState)
    (hr : Reaches steps (initState n) s) (hdone : AllDone steps s) :
    s.log.length = n * steps ∧ s.log.Nodup ∧
      ∀ w i, (w, i) ∈ s.log ↔ w < n ∧ i < steps := by
  have hi := sysInv_reaches hr
  have hpclt : ∀ w, w < n → pcOf s w = steps := by
    intro w hw
    have hlt : w < s.workers.length := by rw [hi.wlen]; exact hw
    have hget : s.workers[w]? = some s.workers[w] := List.getElem?_eq_getElem hlt
    rw [pcOf_eq_of_getElem hget, hdone s.workers[w] (List.getElem_mem hlt)]
  have hpcge : ∀ w, n ≤ w → pcOf s w = 0 := by
    intro w hw
    apply pcOf_eq_zero_of_none
    apply List.getElem?_eq_none
    rw [hi.wlen]
    exact hw
  refine ⟨?_, ?_, ?_⟩
  · rw [length_filter_sum s.log n hi.log_dom]
    have hterm : ∀ w ∈ Finset.range n, (s.log.filter (fun p => p.1 == w)).length = steps := by
      intro w hw
      have h1 : ((s.log.filter (fun p => p.1 == w)).map Prod.snd).length = steps := by
        rw [hi.log_seq w, hpclt w (Finset.mem_range.mp hw), List.length_range]
      rw [List.length_map] at h1
      exact h1
    rw [Finset.sum_congr rfl hterm, Finset.sum_const, Finset.card_range, smul_eq_mul]
  · apply nodup_of_filter_snd
    intro w
    rw [hi.log_seq w]
    exact List.nodup_range (pcOf s w)
  · intro w i
    rw [mem_log_iff s.log w i, hi.log_seq w, List.mem_range]
    by_cases hw : w < n
    · rw [hpclt w hw]
      exact ⟨fun h => ⟨hw, h⟩, fun h => h.2⟩
    · rw [hpcge w (Nat.le_of_not_lt hw)]
      exact ⟨fun h => absurd h (Nat.not_lt_zero i), fun h => absurd h.1 hw⟩

/-- Claim C6: in every reachable state, each worker's own entries appear
in the log in strictly increasing local step order. -/
theorem worker_entries_in_local_order (steps n : Nat) (s : SysState)
    (hr : Reaches steps (initState n) s) (w : Nat) :
    ((s.log.filter (fun p => p.1 == w)).map Prod.snd).Pairwise (· < ·) := by
  rw [(sysInv_reaches hr).log_seq w]
  exact List.pairwise_lt_range (pcOf s w)

/-- Claim C7: in every reachable state at most one worker is inside the
append critical section, and the only log-changing transition is an
append performed by the worker currently holding the lock. -/
theorem append_serialized_by_lock (steps n : Nat) (s : SysState)
    (hr : Reaches steps (initState n) s) :
    (∀ u v, InCrit s u → InCrit s v → u = v) ∧
    (∀ s', WorkerStep steps s s' → s'.log ≠ s.log →
      ∃ w, s.lock = some w ∧ InCrit s w ∧ s'.log = s.log ++ [(w, pcOf s w)]) := by
  have hi := sysInv_reaches hr
  constructor
  · rintro u v ⟨stu, hu, hcu⟩ ⟨stv, hv, hcv⟩
    have h1 := hi.crit_lock u stu hu hcu
    have h2 := hi.crit_lock v stv hv hcv
    rw [h1] at h2
    exact Option.some_inj.mp h2
  · intro s' hstep hne
    cases hstep with
    | acquire w st s hl hw hc hp => exact absurd rfl hne
    | append w st s hl hw hc =>
      exact ⟨w, hl, ⟨st, hw, hc⟩, by rw [pcOf_eq_of_getElem hw]⟩

/-- Counterexample to claim C3 as stated: the string the worker appends
for worker 0, step 0 is not `"worker0-step0"` — the source formats its
entries as `"线程{id}-任务{i}"`, not `"worker{id}-step{i}"`. -/
theorem worker_entry_ne_spec_format : workerEntry 0 0 ≠ specEntry 0 0 := by decide

/-- Claim C3 (amended): every entry a worker appends to the shared log
is the formatted string `"线程{id}-任务{i}"` (`workerEntry id i`) where
`id < n` is the worker's identity and `i < steps` its local step. -/
theorem log_entries_use_thread_task_format (steps n : Nat) (s : SysState)
    (hr : Reaches steps (initState n) s) :
    ∀ e ∈ s.log.map (fun p => workerEntry p.1 p.2),
      ∃ w i, w < n ∧ i < steps ∧ e = workerEntry w i := by
  have hi := sysInv_reaches hr
  intro e he
  rw [List.mem_map] at he
  obtain ⟨⟨w, i⟩, hmem, rfl⟩ := he
  refine ⟨w, i, hi.log_dom (w, i) hmem, ?_, rfl⟩
  have h1 : i ∈ (s.log.filter (fun p => p.1 == w)).map Prod.snd :=
    (mem_log_iff s.log w i).mp hmem
  rw [hi.log_seq w] at h1
  have h2 := List.mem_range.mp h1
  have h3 : pcOf s w ≤ steps := by
    rcases hget : s.workers[w]? with _ | st
    · rw [pcOf_eq_zero_of_none hget]
      exact Nat.zero_le steps
    · rw [pcOf_eq_of_getElem hget]
      exact hi.pc_le w st hget
  omega

/-- Transitivity of reachability. -/
lemma reachesTrans {steps : Nat} {a b c : SysState}
    (h1 : Reaches steps a b) (h2 : Reaches steps b c) : Reaches steps a c :=
  Relation.ReflTransGen.trans h1 h2

/-- One full iteration of a worker from a quiescent state: acquire the
lock, append the entry, release. -/
lemma pairStep (steps w i : Nat) (ws : List WorkerSt) (lg : List (Nat × Nat))
    (hw : ws[w]? = some ⟨i, false⟩) (hi : i < steps) :
    Reaches steps ⟨none, ws, lg⟩ ⟨none, ws.set w ⟨i + 1, false⟩, lg ++ [(w, i)]⟩ := by
  have hwlt : w < ws.length := (List.getElem?_eq_some_iff.mp hw).1
  have h1 : WorkerStep steps ⟨none, ws, lg⟩ ⟨some w, ws.set w ⟨i, true⟩, lg⟩ :=
    WorkerStep.acquire w ⟨i, false⟩ ⟨none, ws, lg⟩ rfl hw rfl hi
  have h2 : WorkerStep steps ⟨some w, ws.set w ⟨i, true⟩, lg⟩
      ⟨none, (ws.set w ⟨i, true⟩).set w ⟨i + 1, false⟩, lg ++ [(w, i)]⟩ :=
    WorkerStep.append w ⟨i, true⟩ ⟨some w, ws.set w ⟨i, true⟩, lg⟩ rfl
      (List.getElem?_set_self hwlt) rfl
  rw [List.set_set] at h2
  exact Relation.ReflTransGen.tail (Relation.ReflTransGen.single h1) h2

/-- A concrete complete run of the demonstration (3 workers, 5 steps
each, workers finishing one after the other) reaching `demoFinal`. -/
lemma demoTrace : Reaches 5 (initState 3) demoFinal := by
  have t01 := pairStep 5 0 0 [⟨0, false⟩, ⟨0, false⟩, ⟨0, false⟩]
    [] rfl (by decide)
  have t02 := pairStep 5 0 1 [⟨1, false⟩, ⟨0, false⟩, ⟨0, false⟩]
    [(0, 0)] rfl (by decide)
  have t03 := pairStep 5 0 2 [⟨2, false⟩, ⟨0, false⟩, ⟨0, false⟩]
    [(0, 0), (0, 1)] rfl (by decide)
  have t04 := pairStep 5 0 3 [⟨3, false⟩, ⟨0, false⟩, ⟨0, false⟩]
    [(0, 0), (0, 1), (0, 2)] rfl (by decide)
  have t05 := pairStep 5 0 4 [⟨4, false⟩, ⟨0, false⟩, ⟨0, false⟩]
    [(0, 0), (0, 1), (0, 2), (0, 3)] rfl (by decide)
  have t06 := pairStep 5 1 0 [⟨5, false⟩, ⟨0, false⟩, ⟨0, false⟩]
    [(0, 0), (0, 1), (0, 2), (0, 3), (0, 4)] rfl (by decide)
  have t07 := pairStep 5 1 1 [⟨5, false⟩, ⟨1, false⟩, ⟨0, false⟩]
    [(0, 0), (0, 1), (0, 2), (0, 3), (0, 4), (1, 0)] rfl (by decide)
  have t08 := pairStep 5 1 2 [⟨5, false⟩, ⟨2, false⟩, ⟨0, false⟩]
    [(0, 0), (0, 1), (0, 2), (0, 3), (0, 4), (1, 0), (1, 1)] rfl (by decide)
  have t09 := pairStep 5 1 3 [⟨5, false⟩, ⟨3, false⟩, ⟨0, false⟩]
    [(0, 0), (0, 1), (0, 2), (0, 3), (0, 4), (1, 0), (1, 1), (1, 2)] rfl (by decide)
  have t10 := pairStep 5 1 4 [⟨5, false⟩, ⟨4, false⟩, ⟨0, false⟩]
    [(0, 0), (0, 1), (0, 2), (0, 3), (0, 4), (1, 0), (1, 1), (1, 2), (1, 3)]
    rfl (by decide)
  have t11 := pairStep 5 2 0 [⟨5, false⟩, ⟨5, false⟩, ⟨0, false⟩]
    [(0, 0), (0, 1), (0, 2), (0, 3), (0, 4), (1, 0), (1, 1), (1, 2), (1, 3), (1, 4)]
    rfl (by decide)
  have t12 := pairStep 5 2 1 [⟨5, false⟩, ⟨5, false⟩, ⟨1, false⟩]
    [(0, 0), (0, 1), (0, 2), (0, 3), (0, 4), (1, 0), (1, 1), (1, 2), (1, 3), (1, 4),
     (2, 0)] rfl (by decide)
  have t13 := pairStep 5 2 2 [⟨5, false⟩, ⟨5, false⟩, ⟨2, false⟩]
    [(0, 0), (0, 1), (0, 2), (0, 3), (0, 4), (1, 0), (1, 1), (1, 2), (1, 3), (1, 4),
     (2, 0), (2, 1)] rfl (by decide)
  have t14 := pairStep 5 2 3 [⟨5, false⟩, ⟨5, false⟩, ⟨3, false⟩]
    [(0, 0), (0, 1), (0, 2), (0, 3), (0, 4), (1, 0), (1, 1), (1, 2), (1, 3), (1, 4),
     (2, 0), (2, 1), (2, 2)] rfl (by decide)
  have t15 := pairStep 5 2 4 [⟨5, false⟩, ⟨5, false⟩, ⟨4, false⟩]
    [(0, 0), (0, 1), (0, 2), (0, 3), (0, 4), (1, 0), (1, 1), (1, 2), (1, 3), (1, 4),
     (2, 0), (2, 1), (2, 2), (2, 3)] rfl (by decide)
  exact reachesTrans t01 (reachesTrans t02 (reachesTrans t03 (reachesTrans t04
    (reachesTrans t05 (reachesTrans t06 (reachesTrans t07 (reachesTrans t08
    (reachesTrans t09 (reachesTrans t10 (reachesTrans t11 (reachesTrans t12
    (reachesTrans t13 (reachesTrans t14 t15)))))))))))))

/-- Witness for C2: the demonstration run has exactly `3 * 5 = 15` log
entries, none duplicated or missing. -/
theorem shared_log_complete_witness :
    demoFinal.log.length = 3 * 5 ∧ demoFinal.log.Nodup ∧
      ∀ w i, (w, i) ∈ demoFinal.log ↔ w < 3 ∧ i < 5 :=
  shared_log_complete 5 3 demoFinal demoTrace (by unfold AllDone; decide)

/-- Witness for C6 at the demonstration's final state, worker 1. -/
theorem worker_entries_in_local_order_witness :
    ((demoFinal.log.filter (fun p => p.1 == 1)).map Prod.snd).Pairwise (· < ·) :=
  worker_entries_in_local_order 5 3 demoFinal demoTrace 1

/-- Witness for C7 at the demonstration's final state. -/
theorem append_serialized_by_lock_witness :
    (∀ u v, InCrit demoFinal u → InCrit demoFinal v → u = v) ∧
    (∀ s', WorkerStep 5 demoFinal s' → s'.log ≠ demoFinal.log →
      ∃ w, demoFinal.lock = some w ∧ InCrit demoFinal w ∧
        s'.log = demoFinal.log ++ [(w, pcOf demoFinal w)]) :=
  append_serialized_by_lock 5 3 demoFinal demoTrace

/-- Witness for amended C3 at the demonstration's final state, applied
to its last appended entry. -/
theorem log_entries_use_thread_task_format_witness :
    ∃ w i, w < 3 ∧ i < 5 ∧ workerEntry 2 4 = workerEntry w i :=
  log_entries_use_thread_task_format 5 3 demoFinal demoTrace (workerEntry 2 4)
    (List.mem_map.mpr ⟨(2, 4), by decide, rfl⟩)
